import Mathlib

/-!
Verification development for `src/worker/tools/rate.py` — the relative Elo
rater (BayesElo invoker, ratings-table parser, mean-centering normalizer,
report assembler).  Python strings are modelled as `List Char`, Python floats
as `Rat` (exact arithmetic), dictionaries as insertion-ordered association
lists (Python 3.7+ semantics: assigning an existing key updates the value in
place, keeping the key's original position).  The three `re` patterns of
`parse_ratings` are embedded through a small backtracking matcher that
enumerates candidate matches in the same order as Python's `re` engine
(greedy pieces longest-first, lazy pieces shortest-first, alternatives
left-to-right); `re.match` is the first element of that enumeration.
-/

namespace RatePy

/-! ### Python character classes and string helpers -/

/-- Python's whitespace class `\s` (ASCII range), also the default strip set
of `str.strip` / `str.rstrip`. -/
def pyIsSpace (c : Char) : Bool :=
  c = ' ' || c = '\t' || c = '\n' || c = '\r' || c = '\x0b' || c = '\x0c'

/-- Python's word-character class `\w` (ASCII range), used by `\b`. -/
def isWordChar (c : Char) : Bool := c.isAlphanum || c = '_'

/-- Python `str.rstrip()` with the default whitespace set. -/
def pyRstrip (s : List Char) : List Char :=
  (s.reverse.dropWhile pyIsSpace).reverse

/-- Python `str.strip()` with the default whitespace set. -/
def pyStrip (s : List Char) : List Char :=
  ((s.dropWhile pyIsSpace).reverse.dropWhile pyIsSpace).reverse

/-- Split on newline characters, keeping every segment (helper for
`pySplitlines`). -/
def splitNl : List Char → List (List Char)
  | [] => [[]]
  | c :: r =>
    if c = '\n' then [] :: splitNl r
    else
      match splitNl r with
      | [] => [[c]]
      | p :: ps => (c :: p) :: ps

/-- Python `str.splitlines()`.  The captured backend output passes through
`subprocess` text mode, whose universal-newlines translation leaves `\n` as
the only line terminator, so splitting on `\n` is the faithful model.  Python
returns no trailing empty segment when the string ends with a newline, and
`""` yields `[]`. -/
def pySplitlines (s : List Char) : List (List Char) :=
  if s = [] then []
  else if s.getLast? = some '\n' then (splitNl s).dropLast
  else splitNl s

/-- `"\n".join` of a list of lines. -/
def joinNl : List (List Char) → List Char
  | [] => []
  | [l] => l
  | l :: ls => l ++ '\n' :: joinNl ls

/-! ### A backtracking regex matcher

`mats r s` enumerates the anchored-at-start candidate matches of `r` against
`s`, each as (number of consumed characters, captured groups), in exactly the
order a backtracking engine such as Python's `re` explores them.  Stars are
restricted to single character classes — the only form the three patterns of
`rate.py` use — which keeps the enumeration finite and structural. -/

/-- Captured groups: group index paired with the captured characters. -/
abbrev Caps := List (Nat × List Char)

inductive Re where
  /-- matches the empty string -/
  | eps : Re
  /-- `$` at end of pattern (no trailing newline in a split line) -/
  | eos : Re
  /-- a single character of the class `p` -/
  | cls (p : Char → Bool) : Re
  | seq (a b : Re) : Re
  /-- ordered alternative: `a` is tried before `b` -/
  | alt (a b : Re) : Re
  /-- `p*` (greedy) or `p*?` (lazy) over a character class -/
  | starCls (greedy : Bool) (p : Char → Bool) : Re
  /-- capturing group number `i` -/
  | group (i : Nat) (r : Re) : Re
  /-- `\b` placed directly after a word character: succeeds when the next
  character is not a word character or the input is exhausted -/
  | nwb : Re

/-- Length of the maximal prefix run of characters satisfying `p`. -/
def runLen (p : Char → Bool) : List Char → Nat
  | [] => 0
  | c :: s => if p c then runLen p s + 1 else 0

/-- All candidate matches of `r` against `s`, in backtracking order. -/
def mats : Re → List Char → List (Nat × Caps)
  | .eps, _ => [(0, [])]
  | .eos, s => if s.isEmpty then [(0, [])] else []
  | .cls _, [] => []
  | .cls p, c :: _ => if p c then [(1, [])] else []
  | .seq a b, s =>
      (mats a s).flatMap fun x =>
        (mats b (s.drop x.1)).map fun y => (x.1 + y.1, x.2 ++ y.2)
  | .alt a b, s => mats a s ++ mats b s
  | .starCls greedy p, s =>
      let k := runLen p s
      let ns := if greedy then (List.range (k + 1)).reverse else List.range (k + 1)
      ns.map fun n => (n, [])
  | .group i r, s => (mats r s).map fun x => (x.1, (i, s.take x.1) :: x.2)
  | .nwb, [] => [(0, [])]
  | .nwb, c :: _ => if isWordChar c then [] else [(0, [])]

/-- Python `pattern.match(s)`: the first candidate in backtracking order. -/
def reMatch (r : Re) (s : List Char) : Option (Nat × Caps) :=
  (mats r s).head?

/-- Capture of group `i` of a match (empty when the group is absent). -/
def getCap (g : Caps) (i : Nat) : List Char :=
  match g.find? fun x => x.1 == i with
  | some x => x.2
  | none => []

/-! ### The three patterns of `parse_ratings`

Transcriptions of
`pat_cols = ^\s*\d+\s+(.+?)\s+(-?\d+(?:\.\d+)?)\s+(\d+(?:\.\d+)?)\b`,
`pat_pm   = ^\s*(.+?)\s*:\s*(-?\d+(?:\.\d+)?)\s*\+/\-\s*(\d+(?:\.\d+)?)\s*$`,
`pat_fb   = ^\s*(.+?)\s+(-?\d+(?:\.\d+)?)\s+(\d+(?:\.\d+)?)\s*$`. -/

/-- `\s*` -/
def ws0 : Re := .starCls true pyIsSpace
/-- `\s+` (greedy: one mandatory character, then a greedy star) -/
def ws1 : Re := .seq (.cls pyIsSpace) (.starCls true pyIsSpace)
/-- `\d+` -/
def digits1 : Re := .seq (.cls Char.isDigit) (.starCls true Char.isDigit)
/-- `(?:\.\d+)?` (greedy optional: the present branch is tried first) -/
def fracOpt : Re := .alt (.seq (.cls fun c => c = '.') digits1) .eps
/-- `\d+(?:\.\d+)?` -/
def numU : Re := .seq digits1 fracOpt
/-- `-?\d+(?:\.\d+)?` -/
def numS : Re := .seq (.alt (.cls fun c => c = '-') .eps) numU
/-- `.` (any character but newline) -/
def dotC : Re := .cls fun c => c ≠ '\n'
/-- `.+?` (lazy) -/
def dotPlusLazy : Re := .seq dotC (.starCls false fun c => c ≠ '\n')
/-- a literal character -/
def lit (c : Char) : Re := .cls fun d => d = c

/-- Pattern A: columns with rank, name, elo, err. -/
def pat_cols : Re :=
  .seq ws0 (.seq digits1 (.seq ws1 (.seq (.group 1 dotPlusLazy)
    (.seq ws1 (.seq (.group 2 numS) (.seq ws1 (.seq (.group 3 numU) .nwb)))))))

/-- Pattern B: `Name : 1234` plus-minus `35`. -/
def pat_pm : Re :=
  .seq ws0 (.seq (.group 1 dotPlusLazy) (.seq ws0 (.seq (lit ':')
    (.seq ws0 (.seq (.group 2 numS) (.seq ws0 (.seq (lit '+') (.seq (lit '/')
      (.seq (lit '-') (.seq ws0 (.seq (.group 3 numU) (.seq ws0 .eos))))))))))))

/-- Fallback pattern: `Name  Elo  Err`. -/
def pat_fb : Re :=
  .seq ws0 (.seq (.group 1 dotPlusLazy) (.seq ws1 (.seq (.group 2 numS)
    (.seq ws1 (.seq (.group 3 numU) (.seq ws0 .eos))))))

/-! ### Python `float()` on the captured numerals -/

/-- Value of a digit string. -/
def digitsVal (s : List Char) : Nat :=
  s.foldl (fun a c => a * 10 + (c.toNat - '0'.toNat)) 0

/-- `float()` of an unsigned numeral `digits[.digits]`. -/
def parseFloatPos (s : List Char) : Rat :=
  let ip := s.takeWhile fun c => c ≠ '.'
  match s.dropWhile fun c => c ≠ '.' with
  | _ :: fr => (digitsVal ip : Rat) + (digitsVal fr : Rat) / (10 : Rat) ^ fr.length
  | [] => (digitsVal ip : Rat)

/-- `float()` of a captured group: the patterns only ever capture
`-?\d+(\.\d+)?`. -/
def parseFloat : List Char → Rat
  | '-' :: r => - parseFloatPos r
  | s => parseFloatPos s

/-! ### The parser -/

/-- Failure taxonomy of the program (each `die` call site). -/
inductive Failure where
  /-- PGN missing, or the BayesElo binary not executable -/
  | inputNotFound (path : List Char) : Failure
  /-- `FileNotFoundError` when spawning the backend -/
  | backendNotFound (path : List Char) : Failure
  /-- backend exited non-zero (carries the captured combined output) -/
  | backendFailure (code : Int) (out : List Char) : Failure
  /-- no rating rows recognized (carries `"\n".join(lines[-40:])`) -/
  | parseFailure (tail : List Char) : Failure
  /-- filter name absent (carries the names of the parsed rows) -/
  | participantNotFound (target : List Char) (known : List (List Char)) : Failure
deriving DecidableEq

/-- A rating-table entry: `name ↦ (elo, sigma)`. -/
abbrev Entry := List Char × Rat × Rat

/-- The rating table: an insertion-ordered dictionary. -/
abbrev Table := List Entry

/-- Python dict assignment `d[k] = v`: update in place when the key exists
(keeping its position), otherwise append. -/
def dictInsert (k : List Char) (v : Rat × Rat) : Table → Table
  | [] => [(k, v)]
  | e :: t => if e.1 = k then (e.1, v) :: t else e :: dictInsert k v t

/-- Python `d.get(k)`. -/
def dictLookup (k : List Char) : Table → Option (Rat × Rat)
  | [] => none
  | e :: t => if e.1 = k then some e.2 else dictLookup k t

/-- Python's substring containment `pat in s`. -/
def containsSub (pat : List Char) : List Char → Bool
  | [] => pat.isEmpty
  | c :: r => pat.isPrefixOf (c :: r) || containsSub pat r

/-- The header scan: drop everything up to and including the first line that
contains both `"Name"` and `"Elo"`; when no such line exists, keep all
lines (`start = 0`). -/
def isHeader (ln : List Char) : Bool :=
  containsSub "Name".data ln && containsSub "Elo".data ln

def headerSplit : List (List Char) → Option (List (List Char))
  | [] => none
  | ln :: rest => if isHeader ln then some rest else headerSplit rest

def scanLines (lines : List (List Char)) : List (List Char) :=
  (headerSplit lines).getD lines

/-- The record read off a successful match:
`(m.group(1).strip(), float(m.group(2)), float(m.group(3)))`. -/
def ruleTriple (m : Nat × Caps) : Entry :=
  (pyStrip (getCap m.2 1), parseFloat (getCap m.2 2), parseFloat (getCap m.2 3))

/-- One line of the extraction loop:
`m = pat_cols.match(ln) or pat_pm.match(ln) or pat_fb.match(ln)`;
on a match the record is `ruleTriple m`. -/
def extractLine (ln : List Char) : Option Entry :=
  match reMatch pat_cols ln <|> reMatch pat_pm ln <|> reMatch pat_fb ln with
  | some m => some (ruleTriple m)
  | none => none

/-- Loop body: rstrip the line, skip blank lines, otherwise try the rules
and store a successful extraction (last write wins). -/
def scanLine (tbl : Table) (ln0 : List Char) : Table :=
  if pyStrip (pyRstrip ln0) = [] then tbl
  else
    match extractLine (pyRstrip ln0) with
    | some e => dictInsert e.1 e.2 tbl
    | none => tbl

/-- `parse_ratings` of `rate.py`: returns the table, or `ParseFailure`
carrying `"\n".join(lines[-40:])` when no record was produced. -/
def parse_ratings (output : List Char) : Except Failure Table :=
  let lines := pySplitlines output
  let tbl := (scanLines lines).foldl scanLine []
  if tbl = [] then
    .error (.parseFailure (joinNl (lines.drop (lines.length - 40))))
  else .ok tbl

/-! ### The normalizer -/

/-- `mean_center` of `rate.py`: empty table unchanged; otherwise subtract
the arithmetic mean of the elos, passing sigma through. -/
def mean_center (ratings : Table) : Table :=
  if ratings = [] then ratings
  else
    let mean := ((ratings.map fun e => e.2.1).sum) / (ratings.length : Rat)
    ratings.map fun e => (e.1, e.2.1 - mean, e.2.2)

/-! ### The assembler -/

/-- Insert into a list already sorted by descending elo, after every entry
with strictly greater key and before the first entry with key ≤ — the unique
stable position, matching Python's stable `sorted(..., reverse=True)`. -/
def insertDesc (x : Entry) : Table → Table
  | [] => [x]
  | y :: ys => if x.2.1 < y.2.1 then y :: insertDesc x ys else x :: y :: ys

/-- `sorted(rel.items(), key=lambda kv: kv[1][0], reverse=True)`: the stable
sort by descending elo. -/
def sortRows : Table → Table
  | [] => []
  | x :: xs => insertDesc x (sortRows xs)

/-- The full JSON payload (string values kept structured; `ratings` are the
sorted rows). -/
structure Payload where
  version : List Char
  mode : List Char
  pgn : List Char
  ratings : Table
  notes : List Char
deriving DecidableEq

/-- The reduced payload printed in filtered mode. -/
structure EnginePayload where
  version : List Char
  mode : List Char
  pgn : List Char
  engine : Entry
  notes : List Char
deriving DecidableEq

/-- What is printed on stdout on success. -/
inductive Output where
  | full (p : Payload) : Output
  | single (p : EnginePayload) : Output
deriving DecidableEq

def notesFull : List Char :=
  "Relative Elo, mean-centered; not calibrated to any external scale.".data

def notesReduced : List Char := "Relative Elo, mean-centered; not calibrated.".data

/-- Python truthiness of `args.engine_name` (`None` and `""` are falsy). -/
def truthyName : Option (List Char) → Bool
  | some (_ :: _) => true
  | _ => false

/-- The report-assembly tail of `main`: build the sorted rows and the payload;
when a truthy engine name is given, look it up among the rows by exact
equality, failing with `ParticipantNotFound` (carrying the row names) when
absent. -/
def assembleReport (rel : Table) (pgn : List Char) (engineName : Option (List Char)) :
    Except Failure Output :=
  let rows := sortRows rel
  if truthyName engineName then
    let t := engineName.getD []
    match rows.find? fun r => r.1 = t with
    | none => .error (.participantNotFound t (rows.map fun r => r.1))
    | some row => .ok (.single ⟨"0".data, "relative-only".data, pgn, row, notesReduced⟩)
  else
    .ok (.full ⟨"0".data, "relative-only".data, pgn, rows, notesFull⟩)

/-! ### The entry point -/

/-- Outcome of `run_bayeselo` (the parts that depend on the external world:
spawning may raise `FileNotFoundError`, the process may exit non-zero, or it
yields the captured combined output). -/
inductive BackendRes where
  | notFound : BackendRes
  | failed (code : Int) (out : List Char) : BackendRes
  | ok (out : List Char) : BackendRes

/-- Observable behaviour of one run: what was printed on stdout (structured),
what diagnostics went to stderr, and the exit status. -/
structure RunTrace where
  stdout : List Output
  stderr : List Failure
  exitCode : Nat
deriving DecidableEq

/-- `main` of `rate.py`, with the filesystem and subprocess effects passed as
parameters (`pgnIsFile` for `os.path.isfile(args.pgn)`, `bayeseloExec` for
the isfile+access check on the binary, `bres` for the backend run).  Each
`die(msg)` is a trace with the diagnostic on stderr and exit code 1. -/
def main (pgn bayeselo : List Char) (engineName : Option (List Char))
    (pgnIsFile bayeseloExec : Bool) (bres : BackendRes) : RunTrace :=
  if !pgnIsFile then ⟨[], [.inputNotFound pgn], 1⟩
  else if !bayeseloExec then ⟨[], [.inputNotFound bayeselo], 1⟩
  else
    match bres with
    | .notFound => ⟨[], [.backendNotFound bayeselo], 1⟩
    | .failed c out => ⟨[], [.backendFailure c out], 1⟩
    | .ok rawOut =>
      match parse_ratings rawOut with
      | .error e => ⟨[], [e], 1⟩
      | .ok raw =>
        let rel := mean_center raw
        match assembleReport rel pgn engineName with
        | .error e => ⟨[], [e], 1⟩
        | .ok o => ⟨[o], [], 0⟩

/-! ### Auxiliary notions for reasoning about the matcher and the parser -/

/-- Digit-or-dot characters: what group 3 (`\d+(?:\.\d+)?`) can capture. -/
def digitOrDot (c : Char) : Bool := c.isDigit || c = '.'

/-- Every character class occurring in the regex implies `P`. -/
def Re.clsAll (P : Char → Bool) : Re → Prop
  | .cls p => ∀ c, p c = true → P c = true
  | .starCls _ p => ∀ c, p c = true → P c = true
  | .seq a b => a.clsAll P ∧ b.clsAll P
  | .alt a b => a.clsAll P ∧ b.clsAll P
  | .group _ r => r.clsAll P
  | _ => True

/-- Every capturing group numbered `i` in the regex has a body whose
character classes all imply `P`. -/
def Re.grpAll (i : Nat) (P : Char → Bool) : Re → Prop
  | .seq a b => a.grpAll i P ∧ b.grpAll i P
  | .alt a b => a.grpAll i P ∧ b.grpAll i P
  | .group j r => (j = i → r.clsAll P) ∧ r.grpAll i P
  | _ => True

/-- Folding one extracted entry into the dictionary. -/
def insEntry (t : Table) (e : Entry) : Table := dictInsert e.1 e.2 t

/-- The stream of records extracted from the scanned lines, in scan order
(blank lines and unmatched lines skipped). -/
def lineTriples (ls : List (List Char)) : List Entry :=
  ls.filterMap fun ln0 =>
    if pyStrip (pyRstrip ln0) = [] then none else extractLine (pyRstrip ln0)

/-! ### Concrete sample inputs used by witnesses and counterexamples -/

/-- A small concrete rating table. -/
def demoTable : Table := [(['A'], (10 : Rat), (5 : Rat)), (['B'], (20 : Rat), (3 : Rat))]

/-- A one-row normalized table. -/
def demoRel : Table := [("EngineA".data, (10 : Rat), (5 : Rat))]

/-! ## Lemmas about the normalizer -/

theorem sum_map_sub (l : Table) (m : Rat) :
    (l.map fun e => e.2.1 - m).sum = (l.map fun e => e.2.1).sum - l.length * m := by
  induction l with
  | nil => simp
  | cons a l ih =>
    simp only [List.map_cons, List.sum_cons, ih, List.length_cons]
    push_cast
    ring

theorem mean_center_eq_map (t : Table) (h : t ≠ []) :
    mean_center t =
      t.map fun e => (e.1, e.2.1 - (t.map fun x => x.2.1).sum / (t.length : Rat), e.2.2) := by
  unfold mean_center
  rw [if_neg h]

theorem mean_center_sum_eq_zero (t : Table) (h : t ≠ []) :
    ((mean_center t).map fun e => e.2.1).sum = 0 := by
  have hn : (t.length : Rat) ≠ 0 := by
    have : t.length ≠ 0 := fun h0 => h (List.length_eq_zero.mp h0)
    exact_mod_cast this
  rw [mean_center_eq_map t h, List.map_map]
  have hcomp :
      ((fun e : Entry => e.2.1) ∘
        fun e : Entry => (e.1, e.2.1 - (t.map fun x => x.2.1).sum / (t.length : Rat), e.2.2)) =
      fun e : Entry => e.2.1 - (t.map fun x => x.2.1).sum / (t.length : Rat) := rfl
  rw [hcomp, sum_map_sub]
  field_simp

theorem mean_center_of_sum_zero (u : Table) (hu : u ≠ [])
    (hsum : (u.map fun e => e.2.1).sum = 0) : mean_center u = u := by
  unfold mean_center
  rw [if_neg hu, hsum, zero_div]
  simp only [sub_zero]
  exact List.map_id' u

/-! ## Lemmas about the stable descending sort -/

theorem insertDesc_perm (x : Entry) (l : Table) : (insertDesc x l).Perm (x :: l) := by
  induction l with
  | nil => exact List.Perm.refl _
  | cons y ys ih =>
    simp only [insertDesc]
    by_cases hc : x.2.1 < y.2.1
    · rw [if_pos hc]
      exact (ih.cons y).trans (List.Perm.swap x y ys)
    · rw [if_neg hc]

theorem sortRows_perm (l : Table) : (sortRows l).Perm l := by
  induction l with
  | nil => exact List.Perm.refl _
  | cons x xs ih => exact (insertDesc_perm x (sortRows xs)).trans (ih.cons x)

theorem insertDesc_pairwise (x : Entry) (l : Table)
    (h : l.Pairwise fun a b => b.2.1 ≤ a.2.1) :
    (insertDesc x l).Pairwise fun a b => b.2.1 ≤ a.2.1 := by
  induction l with
  | nil => simp [insertDesc]
  | cons y ys ih =>
    rw [List.pairwise_cons] at h
    obtain ⟨hy, hys⟩ := h
    simp only [insertDesc]
    by_cases hc : x.2.1 < y.2.1
    · rw [if_pos hc]
      rw [List.pairwise_cons]
      refine ⟨?_, ih hys⟩
      intro b hb
      rcases List.mem_cons.mp ((insertDesc_perm x ys).mem_iff.mp hb) with hb | hb
      · subst hb; exact le_of_lt hc
      · exact hy b hb
    · rw [if_neg hc]
      rw [List.pairwise_cons]
      refine ⟨?_, List.pairwise_cons.mpr ⟨hy, hys⟩⟩
      intro b hb
      rcases List.mem_cons.mp hb with hb | hb
      · subst hb; exact not_lt.mp hc
      · exact le_trans (hy b hb) (not_lt.mp hc)

theorem sortRows_pairwise (l : Table) :
    (sortRows l).Pairwise fun a b => b.2.1 ≤ a.2.1 := by
  induction l with
  | nil => simp [sortRows]
  | cons x xs ih => exact insertDesc_pairwise x (sortRows xs) ih

theorem filter_insertDesc (v : Rat) (x : Entry) (l : Table) :
    (insertDesc x l).filter (fun e => decide (e.2.1 = v)) =
      if x.2.1 = v then x :: l.filter (fun e => decide (e.2.1 = v))
      else l.filter (fun e => decide (e.2.1 = v)) := by
  induction l with
  | nil => by_cases hv : x.2.1 = v <;> simp [insertDesc, List.filter, hv]
  | cons y ys ih =>
    simp only [insertDesc]
    by_cases hc : x.2.1 < y.2.1
    · rw [if_pos hc]
      by_cases hv : x.2.1 = v
      · have hyv : ¬ (y.2.1 = v) := by
          intro hy
          exact absurd (hv ▸ hy ▸ hc) (lt_irrefl _)
        simp [List.filter_cons, hyv, ih, hv]
      · simp [List.filter_cons, ih, hv]
    · rw [if_neg hc]
      by_cases hv : x.2.1 = v <;> simp [List.filter_cons, hv]

theorem filter_sortRows (v : Rat) (l : Table) :
    (sortRows l).filter (fun e => decide (e.2.1 = v)) =
      l.filter (fun e => decide (e.2.1 = v)) := by
  induction l with
  | nil => rfl
  | cons x xs ih =>
    simp only [sortRows, filter_insertDesc, ih, List.filter_cons]
    by_cases hv : x.2.1 = v <;> simp [hv]

/-! ## Claim theorems (normalizer and assembler ordering) -/

/-- C8: the Normalizer applied to the empty RatingTable returns it unchanged —
the empty case is a no-op, not an error. -/
theorem mean_center_empty : mean_center [] = [] := rfl

/-- C1: for every non-empty RatingTable, `mean_center` replaces each record's
rating by `delta = rating - mean(ratings)`, passes the uncertainty (and name)
through unchanged, and the resulting deltas sum to zero — exactly, in the
exact-rational model, hence within any floating tolerance. -/
theorem mean_center_nonempty_spec (t : Table) (h : t ≠ []) :
    mean_center t =
      (t.map fun e => (e.1, e.2.1 - (t.map fun x => x.2.1).sum / (t.length : Rat), e.2.2)) ∧
    ((mean_center t).map fun e => e.2.1).sum = 0 :=
  ⟨mean_center_eq_map t h, mean_center_sum_eq_zero t h⟩

theorem mean_center_nonempty_spec_witness :
    demoTable ≠ [] ∧
    (mean_center demoTable =
      (demoTable.map fun e =>
        (e.1, e.2.1 - (demoTable.map fun x => x.2.1).sum / (demoTable.length : Rat), e.2.2)) ∧
    ((mean_center demoTable).map fun e => e.2.1).sum = 0) :=
  ⟨List.cons_ne_nil _ _, mean_center_nonempty_spec demoTable (List.cons_ne_nil _ _)⟩

/-- C10: mean-centering is idempotent in exact arithmetic:
`mean_center (mean_center t) = mean_center t` for every table. -/
theorem mean_center_idempotent (t : Table) :
    mean_center (mean_center t) = mean_center t := by
  by_cases h : t = []
  · subst h; rfl
  · have hne : mean_center t ≠ [] := by
      rw [mean_center_eq_map t h]
      intro hmap
      exact h (List.map_eq_nil_iff.mp hmap)
    exact mean_center_of_sum_zero (mean_center t) hne (mean_center_sum_eq_zero t h)

/-- C4: for every NormalizedTable, the Report Assembler (unfiltered mode)
emits the rows sorted by descending delta, and the sort is stable: the rows
with any given delta value appear in their original order.  (A stable sort by
a total key is unique, so these properties pin down the embedding of Python's
`sorted(..., key=elo, reverse=True)`.) -/
theorem assembler_rows_sorted_stable (rel : Table) (pgn : List Char) :
    assembleReport rel pgn none =
      .ok (.full ⟨"0".data, "relative-only".data, pgn, sortRows rel, notesFull⟩) ∧
    ((sortRows rel).Pairwise fun a b => b.2.1 ≤ a.2.1) ∧
    (sortRows rel).Perm rel ∧
    ∀ v : Rat, (sortRows rel).filter (fun e => decide (e.2.1 = v)) =
      rel.filter (fun e => decide (e.2.1 = v)) :=
  ⟨rfl, sortRows_pairwise rel, sortRows_perm rel, fun v => filter_sortRows v rel⟩

/-! ## Claim theorems (assembler filtering and the entry point) -/

/-- C5 counterexample: the empty string is a supplied target name, and no
row of the table is named `""` (the only row is `"EngineA"`), so the claim
demands a `ParticipantNotFound` failure — but the code's truthiness test on
`args.engine_name` treats `""` as "no filter" and happily emits the full
payload. -/
theorem assembler_empty_target_counterexample :
    assembleReport demoRel "g.pgn".data (some []) =
      .ok (.full ⟨"0".data, "relative-only".data, "g.pgn".data, demoRel, notesFull⟩) ∧
    (sortRows demoRel).all (fun r => !(decide (r.1 = ([] : List Char)))) = true :=
  ⟨rfl, rfl⟩

/-- C5 (amended): for every NormalizedTable and every supplied *non-empty*
target participant name: if no row's name equals the target exactly, the
Assembler fails with `ParticipantNotFound` carrying the full list of row
names; otherwise it emits the reduced payload containing exactly the found
row together with the same metadata fields (version, mode, source path). -/
theorem assembler_filter_spec (rel : Table) (pgn t : List Char) (ht : t ≠ []) :
    ((∀ r ∈ sortRows rel, r.1 ≠ t) →
      assembleReport rel pgn (some t) =
        .error (.participantNotFound t ((sortRows rel).map fun r => r.1))) ∧
    (∀ row, (sortRows rel).find? (fun r => r.1 = t) = some row →
      assembleReport rel pgn (some t) =
        .ok (.single ⟨"0".data, "relative-only".data, pgn, row, notesReduced⟩)) := by
  obtain ⟨c, ts, rfl⟩ : ∃ c ts, t = c :: ts := by
    cases t with
    | nil => exact absurd rfl ht
    | cons c ts => exact ⟨c, ts, rfl⟩
  constructor
  · intro hnone
    have hfind : (sortRows rel).find? (fun r => r.1 = c :: ts) = none := by
      rw [List.find?_eq_none]
      intro x hx
      simpa using hnone x hx
    simp only [assembleReport, truthyName, if_true, Option.getD_some]
    rw [hfind]
  · intro row hrow
    simp only [assembleReport, truthyName, if_true, Option.getD_some]
    rw [hrow]

theorem assembler_filter_spec_witness :
    "EngineA".data ≠ ([] : List Char) ∧
    assembleReport demoRel "g.pgn".data (some "EngineA".data) =
      .ok (.single ⟨"0".data, "relative-only".data, "g.pgn".data,
        ("EngineA".data, (10 : Rat), (5 : Rat)), notesReduced⟩) :=
  ⟨by decide,
    (assembler_filter_spec demoRel "g.pgn".data "EngineA".data (by decide)).2
      ("EngineA".data, (10 : Rat), (5 : Rat)) rfl⟩

/-- C9: on every failure path the program puts a diagnostic on the error
channel and exits non-zero with nothing on the success channel, and success
output is produced only together with exit status 0 — every run trace is
either (exit 0, empty stderr, exactly one payload on stdout) or (non-zero
exit, empty stdout, a diagnostic on stderr). -/
theorem main_all_or_nothing (pgn bayeselo : List Char) (en : Option (List Char))
    (pgnIsFile bayeseloExec : Bool) (bres : BackendRes) :
    ((main pgn bayeselo en pgnIsFile bayeseloExec bres).exitCode = 0 ∧
      (main pgn bayeselo en pgnIsFile bayeseloExec bres).stderr = [] ∧
      ∃ o, (main pgn bayeselo en pgnIsFile bayeseloExec bres).stdout = [o]) ∨
    ((main pgn bayeselo en pgnIsFile bayeseloExec bres).exitCode ≠ 0 ∧
      (main pgn bayeselo en pgnIsFile bayeseloExec bres).stdout = [] ∧
      (main pgn bayeselo en pgnIsFile bayeseloExec bres).stderr ≠ []) := by
  cases pgnIsFile with
  | false => exact Or.inr ⟨by simp [main], by simp [main], by simp [main]⟩
  | true =>
    cases bayeseloExec with
    | false => exact Or.inr ⟨by simp [main], by simp [main], by simp [main]⟩
    | true =>
      cases bres with
      | notFound => exact Or.inr ⟨by simp [main], by simp [main], by simp [main]⟩
      | failed c out => exact Or.inr ⟨by simp [main], by simp [main], by simp [main]⟩
      | ok out =>
        simp only [main, Bool.not_true, Bool.false_eq_true, if_false]
        cases hp : parse_ratings out with
        | error e => exact Or.inr ⟨by simp [hp], by simp [hp], by simp [hp]⟩
        | ok raw =>
          cases ha : assembleReport (mean_center raw) pgn en with
          | error e => exact Or.inr ⟨by simp [hp, ha], by simp [hp, ha], by simp [hp, ha]⟩
          | ok o => exact Or.inl ⟨by simp [hp, ha], by simp [hp, ha], ⟨o, by simp [hp, ha]⟩⟩

/-! ## Lemmas about the matcher -/

theorem mem_of_head? {α : Type} {l : List α} {x : α} (h : l.head? = some x) : x ∈ l := by
  cases l with
  | nil => simp at h
  | cons a t =>
    simp only [List.head?_cons, Option.some.injEq] at h
    subst h
    exact List.mem_cons_self a t

theorem reMatch_mem {r : Re} {s : List Char} {m : Nat × Caps}
    (h : reMatch r s = some m) : m ∈ mats r s :=
  mem_of_head? h

theorem runLen_take_all {p : Char → Bool} :
    ∀ (s : List Char) (n : Nat), n ≤ runLen p s → (s.take n).all p = true := by
  intro s
  induction s with
  | nil =>
    intro n hn
    simp [runLen] at hn
    subst hn
    simp
  | cons c s ih =>
    intro n hn
    by_cases hc : p c
    · rw [runLen, if_pos hc] at hn
      cases n with
      | zero => simp
      | succ k =>
        rw [List.take_succ_cons, List.all_cons, hc, Bool.true_and]
        exact ih k (Nat.lt_succ_iff.mp (Nat.lt_of_lt_of_le (Nat.lt_succ_self k) hn))
    · rw [runLen, if_neg hc] at hn
      interval_cases n
      simp

theorem mats_take_all {P : Char → Bool} :
    ∀ r : Re, r.clsAll P → ∀ s : List Char, ∀ x ∈ mats r s, (s.take x.1).all P = true := by
  intro r
  induction r with
  | eps =>
    intro _ s x hx
    simp only [mats, List.mem_singleton] at hx
    subst hx
    simp
  | eos =>
    intro _ s x hx
    simp only [mats] at hx
    by_cases hs : s.isEmpty
    · rw [if_pos hs, List.mem_singleton] at hx
      subst hx
      simp
    · rw [if_neg hs] at hx
      simp at hx
  | cls p =>
    intro hcls s x hx
    cases s with
    | nil => simp [mats] at hx
    | cons c s' =>
      simp only [mats] at hx
      by_cases hc : p c
      · rw [if_pos hc, List.mem_singleton] at hx
        subst hx
        simp [hcls c hc]
      · rw [if_neg hc] at hx
        simp at hx
  | seq a b iha ihb =>
    intro hcls s x hx
    simp only [mats, List.mem_flatMap, List.mem_map] at hx
    obtain ⟨y, hy, z, hz, rfl⟩ := hx
    rw [List.take_add, List.all_append]
    rw [iha hcls.1 s y hy, ihb hcls.2 (s.drop y.1) z hz]
    rfl
  | alt a b iha ihb =>
    intro hcls s x hx
    rcases List.mem_append.mp hx with hx | hx
    · exact iha hcls.1 s x hx
    · exact ihb hcls.2 s x hx
  | starCls greedy p =>
    intro hcls s x hx
    simp only [mats, List.mem_map] at hx
    obtain ⟨n, hn, rfl⟩ := hx
    have hn' : n ≤ runLen p s := by
      by_cases hg : greedy
      · rw [if_pos hg, List.mem_reverse, List.mem_range] at hn
        omega
      · rw [if_neg hg, List.mem_range] at hn
        omega
    have hp := runLen_take_all s n hn'
    rw [List.all_eq_true] at hp ⊢
    intro c hc
    exact hcls c (hp c hc)
  | group i r ih =>
    intro hcls s x hx
    simp only [mats, List.mem_map] at hx
    obtain ⟨y, hy, rfl⟩ := hx
    exact ih hcls s y hy
  | nwb =>
    intro _ s x hx
    cases s with
    | nil =>
      simp only [mats, List.mem_singleton] at hx
      subst hx
      simp
    | cons c s' =>
      simp only [mats] at hx
      by_cases hc : isWordChar c
      · rw [if_pos hc] at hx
        simp at hx
      · rw [if_neg hc, List.mem_singleton] at hx
        subst hx
        simp

theorem mats_caps_all {P : Char → Bool} {i : Nat} :
    ∀ r : Re, r.grpAll i P → ∀ s : List Char, ∀ x ∈ mats r s,
      ∀ c, (i, c) ∈ x.2 → c.all P = true := by
  intro r
  induction r with
  | eps =>
    intro _ s x hx c hc
    simp only [mats, List.mem_singleton] at hx
    subst hx
    simp at hc
  | eos =>
    intro _ s x hx c hc
    simp only [mats] at hx
    by_cases hs : s.isEmpty
    · rw [if_pos hs, List.mem_singleton] at hx
      subst hx
      simp at hc
    · rw [if_neg hs] at hx
      simp at hx
  | cls p =>
    intro _ s x hx c hc
    cases s with
    | nil => simp [mats] at hx
    | cons a s' =>
      simp only [mats] at hx
      by_cases hp : p a
      · rw [if_pos hp, List.mem_singleton] at hx
        subst hx
        simp at hc
      · rw [if_neg hp] at hx
        simp at hx
  | seq a b iha ihb =>
    intro hg s x hx c hc
    simp only [mats, List.mem_flatMap, List.mem_map] at hx
    obtain ⟨y, hy, z, hz, rfl⟩ := hx
    rcases List.mem_append.mp hc with hc | hc
    · exact iha hg.1 s y hy c hc
    · exact ihb hg.2 (s.drop y.1) z hz c hc
  | alt a b iha ihb =>
    intro hg s x hx c hc
    rcases List.mem_append.mp hx with hx | hx
    · exact iha hg.1 s x hx c hc
    · exact ihb hg.2 s x hx c hc
  | starCls greedy p =>
    intro _ s x hx c hc
    simp only [mats, List.mem_map] at hx
    obtain ⟨n, _, rfl⟩ := hx
    simp at hc
  | group j r ih =>
    intro hg s x hx c hc
    simp only [mats, List.mem_map] at hx
    obtain ⟨y, hy, rfl⟩ := hx
    rcases List.mem_cons.mp hc with hc | hc
    · have hji : j = i := (Prod.mk.injEq _ _ _ _).mp hc.symm |>.1
      have hcc : c = s.take y.1 := ((Prod.mk.injEq _ _ _ _).mp hc.symm).2.symm
      subst hcc
      exact mats_take_all r (hg.1 hji) s y hy
    · exact ih hg.2 s y hy c hc
  | nwb =>
    intro _ s x hx c hc
    cases s with
    | nil =>
      simp only [mats, List.mem_singleton] at hx
      subst hx
      simp at hc
    | cons a s' =>
      simp only [mats] at hx
      by_cases hw : isWordChar a
      · rw [if_pos hw] at hx
        simp at hx
      · rw [if_neg hw, List.mem_singleton] at hx
        subst hx
        simp at hc

/-! ## Group 3 of each pattern captures only digit-or-dot characters -/

theorem grpAll3_pat_cols : pat_cols.grpAll 3 digitOrDot := by
  simp only [pat_cols, ws0, ws1, digits1, fracOpt, numU, numS, dotPlusLazy, dotC, lit,
    Re.grpAll, Re.clsAll, digitOrDot]
  simp
  exact fun c h => Or.inl h

theorem grpAll3_pat_pm : pat_pm.grpAll 3 digitOrDot := by
  simp only [pat_pm, ws0, ws1, digits1, fracOpt, numU, numS, dotPlusLazy, dotC, lit,
    Re.grpAll, Re.clsAll, digitOrDot]
  simp
  exact fun c h => Or.inl h

theorem grpAll3_pat_fb : pat_fb.grpAll 3 digitOrDot := by
  simp only [pat_fb, ws0, ws1, digits1, fracOpt, numU, numS, dotPlusLazy, dotC, lit,
    Re.grpAll, Re.clsAll, digitOrDot]
  simp
  exact fun c h => Or.inl h

/-! ## Nonnegativity of the captured uncertainty -/

theorem parseFloatPos_nonneg (s : List Char) : 0 ≤ parseFloatPos s := by
  unfold parseFloatPos
  split
  · positivity
  · positivity

theorem parseFloat_nonneg {s : List Char} (h : s.all digitOrDot = true) :
    0 ≤ parseFloat s := by
  unfold parseFloat
  split
  · next r =>
    exfalso
    simp [digitOrDot] at h
  · exact parseFloatPos_nonneg _

theorem getCap_all {P : Char → Bool} {g : Caps} {i : Nat}
    (h : ∀ c, (i, c) ∈ g → c.all P = true) : (getCap g i).all P = true := by
  unfold getCap
  split
  · next x hx =>
    have hmem : x ∈ g := List.mem_of_find?_eq_some hx
    have hbeq : x.1 = i := by
      have := List.find?_some hx
      simpa using this
    refine h x.2 ?_
    rw [← hbeq]
    exact hmem
  · simp

theorem extractLine_eq_some {ln : List Char} {e : Entry} (h : extractLine ln = some e) :
    ∃ m, (m ∈ mats pat_cols ln ∨ m ∈ mats pat_pm ln ∨ m ∈ mats pat_fb ln) ∧
      e = ruleTriple m := by
  unfold extractLine at h
  cases hc : reMatch pat_cols ln with
  | some m =>
    rw [hc] at h
    simp only [Option.some_orElse, Option.some.injEq] at h
    exact ⟨m, Or.inl (reMatch_mem hc), h.symm⟩
  | none =>
    rw [hc] at h
    simp only [Option.none_orElse] at h
    cases hp : reMatch pat_pm ln with
    | some m =>
      rw [hp] at h
      simp only [Option.some_orElse, Option.some.injEq] at h
      exact ⟨m, Or.inr (Or.inl (reMatch_mem hp)), h.symm⟩
    | none =>
      rw [hp] at h
      simp only [Option.none_orElse] at h
      cases hf : reMatch pat_fb ln with
      | some m =>
        rw [hf] at h
        simp only [Option.some.injEq] at h
        exact ⟨m, Or.inr (Or.inr (reMatch_mem hf)), h.symm⟩
      | none =>
        rw [hf] at h
        simp at h

theorem extractLine_snd_nonneg {ln : List Char} {e : Entry}
    (h : extractLine ln = some e) : 0 ≤ e.2.2 := by
  obtain ⟨m, hm, rfl⟩ := extractLine_eq_some h
  refine parseFloat_nonneg (getCap_all ?_)
  intro c hc
  rcases hm with hm | hm | hm
  · exact mats_caps_all pat_cols grpAll3_pat_cols ln m hm c hc
  · exact mats_caps_all pat_pm grpAll3_pat_pm ln m hm c hc
  · exact mats_caps_all pat_fb grpAll3_pat_fb ln m hm c hc

/-! ## Lemmas about the dictionary and the extraction fold -/

theorem mem_dictInsert {k : List Char} {v : Rat × Rat} :
    ∀ {t : Table} {a : Entry}, a ∈ dictInsert k v t → (a.1 = k ∧ a.2 = v) ∨ a ∈ t := by
  intro t
  induction t with
  | nil =>
    intro a ha
    simp only [dictInsert, List.mem_singleton] at ha
    subst ha
    exact Or.inl ⟨rfl, rfl⟩
  | cons e t ih =>
    intro a ha
    simp only [dictInsert] at ha
    by_cases hek : e.1 = k
    · rw [if_pos hek] at ha
      rcases List.mem_cons.mp ha with ha | ha
      · subst ha
        exact Or.inl ⟨hek, rfl⟩
      · exact Or.inr (List.mem_cons_of_mem e ha)
    · rw [if_neg hek] at ha
      rcases List.mem_cons.mp ha with ha | ha
      · subst ha
        exact Or.inr (List.mem_cons_self _ _)
      · rcases ih ha with h | h
        · exact Or.inl h
        · exact Or.inr (List.mem_cons_of_mem e h)

theorem dictInsert_pairwise {k : List Char} {v : Rat × Rat} :
    ∀ {t : Table}, (t.Pairwise fun a b => a.1 ≠ b.1) →
      (dictInsert k v t).Pairwise fun a b => a.1 ≠ b.1 := by
  intro t
  induction t with
  | nil =>
    intro _
    simp [dictInsert]
  | cons e t ih =>
    intro h
    rw [List.pairwise_cons] at h
    obtain ⟨he, ht⟩ := h
    simp only [dictInsert]
    by_cases hek : e.1 = k
    · rw [if_pos hek, List.pairwise_cons]
      exact ⟨he, ht⟩
    · rw [if_neg hek, List.pairwise_cons]
      refine ⟨?_, ih ht⟩
      intro b hb
      rcases mem_dictInsert hb with ⟨hb1, _⟩ | hb
      · rw [hb1]
        exact hek
      · exact he b hb

theorem scanLine_pres_nonneg {t0 : Table} (h : ∀ a ∈ t0, 0 ≤ a.2.2) (ln : List Char) :
    ∀ a ∈ scanLine t0 ln, 0 ≤ a.2.2 := by
  intro a ha
  unfold scanLine at ha
  split at ha
  · exact h a ha
  · cases hex : extractLine (pyRstrip ln) with
    | some e =>
      rw [hex] at ha
      rcases mem_dictInsert ha with ⟨_, h2⟩ | hm
      · rw [h2]
        exact extractLine_snd_nonneg hex
      · exact h a hm
    | none =>
      rw [hex] at ha
      exact h a ha

theorem scanLine_pres_pairwise {t0 : Table} (h : t0.Pairwise fun a b => a.1 ≠ b.1)
    (ln : List Char) : (scanLine t0 ln).Pairwise fun a b => a.1 ≠ b.1 := by
  unfold scanLine
  split
  · exact h
  · cases hex : extractLine (pyRstrip ln) with
    | some e => exact dictInsert_pairwise h
    | none => exact h

theorem foldl_scanLine_nonneg :
    ∀ (ls : List (List Char)) (t0 : Table), (∀ a ∈ t0, 0 ≤ a.2.2) →
      ∀ a ∈ ls.foldl scanLine t0, 0 ≤ a.2.2 := by
  intro ls
  induction ls with
  | nil => exact fun t0 h a ha => h a ha
  | cons ln ls ih => exact fun t0 h a ha => ih _ (scanLine_pres_nonneg h ln) a ha

theorem foldl_scanLine_pairwise :
    ∀ (ls : List (List Char)) (t0 : Table), (t0.Pairwise fun a b => a.1 ≠ b.1) →
      (ls.foldl scanLine t0).Pairwise fun a b => a.1 ≠ b.1 := by
  intro ls
  induction ls with
  | nil => exact fun t0 h => h
  | cons ln ls ih => exact fun t0 h => ih _ (scanLine_pres_pairwise h ln)

theorem parse_ok_eq_fold {out : List Char} {t : Table}
    (h : parse_ratings out = .ok t) :
    t = (scanLines (pySplitlines out)).foldl scanLine [] := by
  simp only [parse_ratings] at h
  split at h
  · simp at h
  · exact ((Except.ok.injEq _ _).mp h).symm

theorem foldl_scanLine_noextract :
    ∀ (ls : List (List Char)) (t0 : Table),
      (∀ ln ∈ ls, extractLine (pyRstrip ln) = none) → ls.foldl scanLine t0 = t0 := by
  intro ls
  induction ls with
  | nil => exact fun t0 _ => rfl
  | cons ln ls ih =>
    intro t0 h
    rw [List.foldl_cons]
    have h1 : scanLine t0 ln = t0 := by
      unfold scanLine
      split
      · rfl
      · rw [h ln (List.mem_cons_self _ _)]
    rw [h1]
    exact ih t0 fun x hx => h x (List.mem_cons_of_mem _ hx)

theorem headerSplit_mem :
    ∀ {ls r : List (List Char)}, headerSplit ls = some r → ∀ x ∈ r, x ∈ ls := by
  intro ls
  induction ls with
  | nil =>
    intro r h
    simp [headerSplit] at h
  | cons ln rest ih =>
    intro r h x hx
    simp only [headerSplit] at h
    by_cases hh : isHeader ln
    · rw [if_pos hh, Option.some.injEq] at h
      subst h
      exact List.mem_cons_of_mem _ hx
    · rw [if_neg hh] at h
      exact List.mem_cons_of_mem _ (ih h x hx)

theorem scanLines_mem {lines : List (List Char)} :
    ∀ x ∈ scanLines lines, x ∈ lines := by
  intro x hx
  unfold scanLines at hx
  cases hh : headerSplit lines with
  | some r =>
    rw [hh, Option.getD_some] at hx
    exact headerSplit_mem hh x hx
  | none =>
    rw [hh, Option.getD_none] at hx
    exact hx

theorem dictLookup_dictInsert (n k : List Char) (v : Rat × Rat) :
    ∀ t : Table, dictLookup n (dictInsert k v t) =
      if n = k then some v else dictLookup n t := by
  intro t
  induction t with
  | nil =>
    simp only [dictInsert, dictLookup]
    by_cases h : n = k
    · subst h
      simp
    · rw [if_neg (fun hk => h hk.symm), if_neg h]
  | cons e t ih =>
    simp only [dictInsert]
    by_cases hek : e.1 = k
    · rw [if_pos hek]
      simp only [dictLookup]
      by_cases hne : e.1 = n
      · rw [if_pos hne, if_pos (by rw [← hne, hek])]
      · rw [if_neg hne, if_neg hne, if_neg (fun hnk => hne (by rw [hek, ← hnk]))]
    · rw [if_neg hek]
      simp only [dictLookup]
      rw [ih]
      by_cases hne : e.1 = n
      · rw [if_pos hne, if_neg (fun hnk => hek (by rw [hne, hnk])), if_pos hne]
      · rw [if_neg hne, if_neg hne]

theorem foldl_insEntry_lookup :
    ∀ (es : List Entry) (t0 : Table) (n : List Char),
      dictLookup n (es.foldl insEntry t0) =
        match (es.filter fun e => decide (e.1 = n)).getLast? with
        | some e => some e.2
        | none => dictLookup n t0 := by
  intro es
  induction es with
  | nil =>
    intro t0 n
    simp
  | cons e es ih =>
    intro t0 n
    rw [List.foldl_cons, ih]
    by_cases hen : e.1 = n
    · rw [List.filter_cons_of_pos (by simpa using hen)]
      cases hfe : es.filter fun x => decide (x.1 = n) with
      | nil =>
        simp only [List.getLast?_nil, List.getLast?_singleton]
        simp only [insEntry, dictLookup_dictInsert]
        rw [if_pos hen.symm]
      | cons x xs =>
        rw [List.getLast?_cons_cons]
        cases hy : (x :: xs).getLast? with
        | none => simp at hy
        | some y => rfl
    · rw [List.filter_cons_of_neg (by simpa using hen)]
      cases hfe : es.filter fun x => decide (x.1 = n) with
      | nil =>
        simp only [List.getLast?_nil]
        simp only [insEntry, dictLookup_dictInsert]
        rw [if_neg (fun h => hen h.symm)]
      | cons x xs =>
        cases hy : (x :: xs).getLast? with
        | none => simp at hy
        | some y => rfl

theorem lineTriples_cons_none {ln : List Char} {ls : List (List Char)}
    (h : (if pyStrip (pyRstrip ln) = [] then none else extractLine (pyRstrip ln)) = none) :
    lineTriples (ln :: ls) = lineTriples ls := by
  unfold lineTriples
  rw [List.filterMap_cons, h]

theorem lineTriples_cons_some {ln : List Char} {ls : List (List Char)} {e : Entry}
    (h : (if pyStrip (pyRstrip ln) = [] then none else extractLine (pyRstrip ln)) = some e) :
    lineTriples (ln :: ls) = e :: lineTriples ls := by
  unfold lineTriples
  rw [List.filterMap_cons, h]

theorem foldl_scanLine_eq_triples :
    ∀ (ls : List (List Char)) (t0 : Table),
      ls.foldl scanLine t0 = (lineTriples ls).foldl insEntry t0 := by
  intro ls
  induction ls with
  | nil => exact fun t0 => rfl
  | cons ln ls ih =>
    intro t0
    rw [List.foldl_cons]
    by_cases hb : pyStrip (pyRstrip ln) = []
    · rw [lineTriples_cons_none (if_pos hb)]
      have h1 : scanLine t0 ln = t0 := by
        unfold scanLine
        rw [if_pos hb]
      rw [h1]
      exact ih t0
    · cases hex : extractLine (pyRstrip ln) with
      | none =>
        rw [lineTriples_cons_none (by rw [if_neg hb, hex])]
        have h1 : scanLine t0 ln = t0 := by
          unfold scanLine
          rw [if_neg hb, hex]
        rw [h1]
        exact ih t0
      | some e =>
        rw [lineTriples_cons_some (by rw [if_neg hb, hex])]
        have h1 : scanLine t0 ln = insEntry t0 e := by
          unfold scanLine
          rw [if_neg hb, hex]
          rfl
        rw [h1, List.foldl_cons]
        exact ih (insEntry t0 e)

theorem countP_le_one_of_pairwise {t : Table}
    (hp : t.Pairwise fun a b => a.1 ≠ b.1) (n : List Char) :
    t.countP (fun e => decide (e.1 = n)) ≤ 1 := by
  induction t with
  | nil => simp
  | cons e t ih =>
    rw [List.pairwise_cons] at hp
    obtain ⟨he, ht⟩ := hp
    rw [List.countP_cons]
    by_cases hen : e.1 = n
    · have hzero : t.countP (fun e => decide (e.1 = n)) = 0 := by
        rw [List.countP_eq_zero]
        intro b hb
        simp only [decide_eq_true_eq]
        intro hbn
        exact he b hb (by rw [hen, hbn])
      simp [hzero, hen]
    · simpa [hen] using ih ht

/-! ## Claim theorems (parser) -/

/-- C2: for every line the parser attempts the recognition rules in the
fixed order ranked-columns (A = `pat_cols`), colon form (B = `pat_pm`), bare
columns (C = `pat_fb`), and the first rule that matches determines the
record; in particular `"1  EngineA  120  35"` yields
`(name "EngineA", rating 120, uncertainty 35)` via rule A, and the colon
line `"EngineB : 85.5 plus-minus 12.0"` (plus-minus written as plus, slash,
minus; rule A rejects it) yields
`(name "EngineB", rating 85.5, uncertainty 12.0)` via rule B. -/
theorem parser_rules_ordered_first_match :
    (∀ (ln : List Char) (m : Nat × Caps), reMatch pat_cols ln = some m →
      extractLine ln = some (ruleTriple m)) ∧
    (∀ (ln : List Char) (m : Nat × Caps), reMatch pat_cols ln = none →
      reMatch pat_pm ln = some m → extractLine ln = some (ruleTriple m)) ∧
    (∀ (ln : List Char) (m : Nat × Caps), reMatch pat_cols ln = none →
      reMatch pat_pm ln = none → reMatch pat_fb ln = some m →
      extractLine ln = some (ruleTriple m)) ∧
    (reMatch pat_cols "1  EngineA  120  35".data).isSome = true ∧
    extractLine "1  EngineA  120  35".data =
      some ("EngineA".data, (120 : Rat), (35 : Rat)) ∧
    reMatch pat_cols "EngineB : 85.5 +/- 12.0".data = none ∧
    (reMatch pat_pm "EngineB : 85.5 +/- 12.0".data).isSome = true ∧
    extractLine "EngineB : 85.5 +/- 12.0".data =
      some ("EngineB".data, (85.5 : Rat), (12.0 : Rat)) := by
  refine ⟨?_, ?_, ?_, rfl, by with_unfolding_all rfl, rfl, rfl,
    by with_unfolding_all rfl⟩
  · intro ln m h
    unfold extractLine
    rw [h]
    simp only [Option.some_orElse]
  · intro ln m h1 h2
    unfold extractLine
    rw [h1, h2]
    simp only [Option.none_orElse, Option.some_orElse]
  · intro ln m h1 h2 h3
    unfold extractLine
    rw [h1, h2, h3]
    simp only [Option.none_orElse]

theorem parser_rules_ordered_first_match_witness :
    extractLine "EngineA 10 5".data =
      some (ruleTriple (12, [(1, "EngineA".data), (2, "10".data), (3, "5".data)])) :=
  parser_rules_ordered_first_match.2.2.1 "EngineA 10 5".data
    (12, [(1, "EngineA".data), (2, "10".data), (3, "5".data)]) rfl rfl rfl

/-- C3: for every captured text in which no line matches any recognition
rule, parsing fails with `ParseFailure` carrying (the `"\n"`-join of) the
last 40 lines of the raw text; and the parser never returns an empty table
as a success. -/
theorem parse_failure_on_no_match (out : List Char) :
    ((∀ ln ∈ pySplitlines out, extractLine (pyRstrip ln) = none) →
      parse_ratings out =
        .error (.parseFailure (joinNl
          ((pySplitlines out).drop ((pySplitlines out).length - 40))))) ∧
    ∀ t : Table, parse_ratings out = .ok t → t ≠ [] := by
  constructor
  · intro h
    have hfold : (scanLines (pySplitlines out)).foldl scanLine [] = [] :=
      foldl_scanLine_noextract _ _ fun ln hln => h ln (scanLines_mem ln hln)
    simp only [parse_ratings]
    rw [hfold]
    rfl
  · intro t ht hnil
    subst hnil
    have hfold := parse_ok_eq_fold ht
    simp only [parse_ratings] at ht
    split at ht
    · simp at ht
    · next hne => exact hne hfold.symm

theorem parse_failure_on_no_match_witness :
    parse_ratings "xyz".data =
      .error (.parseFailure (joinNl
        ((pySplitlines "xyz".data).drop ((pySplitlines "xyz".data).length - 40)))) :=
  (parse_failure_on_no_match "xyz".data).1 (by
    intro ln hln
    have h1 : pySplitlines "xyz".data = [['x', 'y', 'z']] := rfl
    rw [h1, List.mem_singleton] at hln
    subst hln
    rfl)

/-- C6 counterexample: the captured text consisting of the single line
`"   12 34"` (three leading spaces) defeats the "name non-empty" invariant:
backtracking makes the bare-column rule match with `group(1) = " "`, whose
strip is empty, so the parser succeeds with a record whose name is the empty
string. -/
theorem parser_empty_name_counterexample :
    parse_ratings "   12 34".data =
      .ok [(([] : List Char), (12 : Rat), (34 : Rat))] := rfl

/-- C6 (amended): for every raw captured text, every record of a
successfully parsed RatingTable has a name that is unique within the table
and an uncertainty ≥ 0.  (The third invariant claimed — name non-empty —
fails; see the counterexample.) -/
theorem parser_invariants_amended (out : List Char) (t : Table)
    (h : parse_ratings out = .ok t) :
    (t.Pairwise fun a b => a.1 ≠ b.1) ∧ ∀ e ∈ t, 0 ≤ e.2.2 := by
  rw [parse_ok_eq_fold h]
  exact ⟨foldl_scanLine_pairwise _ _ (by simp), foldl_scanLine_nonneg _ _ (by simp)⟩

theorem parser_invariants_amended_witness :
    (([("EngineA".data, (10 : Rat), (5 : Rat))] : Table).Pairwise
      fun a b => a.1 ≠ b.1) ∧
    ∀ e ∈ ([("EngineA".data, (10 : Rat), (5 : Rat))] : Table), 0 ≤ e.2.2 :=
  parser_invariants_amended "EngineA 10 5".data _ rfl

/-- C7: duplicate names are resolved last-write-wins: parsing
`"EngineA 10 5"` then `"EngineA 20 3"` yields exactly the one record
`(EngineA, 20, 3)`; and universally, for every successfully parsed table the
value stored under any name is the value of the last matching line that
yielded that name, and at most one record per name exists. -/
theorem parse_last_write_wins :
    parse_ratings "EngineA 10 5\nEngineA 20 3".data =
      .ok [("EngineA".data, (20 : Rat), (3 : Rat))] ∧
    ∀ (out : List Char) (t : Table), parse_ratings out = .ok t → ∀ n : List Char,
      (dictLookup n t =
        (((lineTriples (scanLines (pySplitlines out))).filter fun e =>
          decide (e.1 = n)).getLast?.map fun e => e.2)) ∧
      t.countP (fun e => decide (e.1 = n)) ≤ 1 := by
  constructor
  · rfl
  · intro out t h n
    constructor
    · rw [parse_ok_eq_fold h, foldl_scanLine_eq_triples, foldl_insEntry_lookup]
      cases hgl : ((lineTriples (scanLines (pySplitlines out))).filter fun e =>
          decide (e.1 = n)).getLast? with
      | some e => rfl
      | none => rfl
    · have hp : t.Pairwise fun a b => a.1 ≠ b.1 := by
        rw [parse_ok_eq_fold h]
        exact foldl_scanLine_pairwise _ _ (by simp)
      exact countP_le_one_of_pairwise hp n

theorem parse_last_write_wins_witness :
    (dictLookup "EngineA".data [("EngineA".data, (20 : Rat), (3 : Rat))] =
      (((lineTriples (scanLines (pySplitlines "EngineA 10 5\nEngineA 20 3".data))).filter
        fun e => decide (e.1 = "EngineA".data)).getLast?.map fun e => e.2)) ∧
    ([("EngineA".data, (20 : Rat), (3 : Rat))] : Table).countP
      (fun e => decide (e.1 = "EngineA".data)) ≤ 1 :=
  parse_last_write_wins.2 "EngineA 10 5\nEngineA 20 3".data
    [("EngineA".data, (20 : Rat), (3 : Rat))] rfl "EngineA".data

end RatePy
